import Mathlib

/-
Verification of the triad toolchain (slicer / mapper / conductor) against its
natural-language specification.  The Rust sources are shallowly embedded:
pure computations become Lean functions, the SQLite tasks table becomes a list
of rows with explicit insert / update functions, and the tree-sitter concrete
syntax tree becomes a mutual inductive of nodes and forests.  Library calls
whose code is outside this repository (petgraph tarjan_scc and toposort,
SQLite row storage) are captured by their documented contracts as hypotheses
or by faithful functional models.
-/

/-! ## Shared schema: kernel-schema/src/lib.rs -/

/-- Embeds struct AtomicUnit of kernel-schema/src/lib.rs. -/
structure AtomicUnit where
  id : String
  code : String
  dependencies : List String
  required_headers : List String
deriving DecidableEq

/-- Default record used for total list indexing (out-of-range reads never
occur on the paths proved below). -/
def defaultUnit : AtomicUnit := ⟨"", "", [], []⟩

/-! ## Conductor: src/conductor/src/db.rs

The tasks table is a list of rows.  The created_at and updated_at columns are
set by SQLite timestamps and are not modeled; no claim mentions them. -/

/-- Embeds enum TaskState of conductor/src/db.rs (serialized as the
uppercase strings PENDING, IN_PROGRESS, COMPLETED, FAILED). -/
inductive TaskState where
  | pending
  | inProgress
  | completed
  | failed
deriving DecidableEq

/-- Embeds one row of the tasks table created in Database::init. -/
structure TaskRow where
  id : String
  atomic_unit_id : String
  state : TaskState
  code_rust : Option String
  error_log : Option String
deriving DecidableEq

/-- Embeds Database::create_task (db.rs lines 58-70):
INSERT OR IGNORE INTO tasks (id, atomic_unit_id, state) VALUES (?, ?, PENDING).
With id as the primary key, the insert is ignored whenever a row with the
same id already exists. -/
def create_task (tasks : List TaskRow) (id atomic_unit_id : String) : List TaskRow :=
  if tasks.any (fun t => t.id == id) then tasks
  else tasks ++ [{ id := id, atomic_unit_id := atomic_unit_id, state := TaskState.pending,
                   code_rust := none, error_log := none }]

/-- Embeds Database::update_task_state (db.rs lines 72-85):
UPDATE tasks SET state = ?, code_rust = ?, error_log = ? WHERE id = ?.
Every row matching the id gets all three columns overwritten by the bound
arguments (code and error may be NULL). -/
def update_task_state (tasks : List TaskRow) (id : String) (state : TaskState)
    (code error : Option String) : List TaskRow :=
  tasks.map (fun t =>
    if t.id == id then { t with state := state, code_rust := code, error_log := error } else t)

/-- Embeds Verifier::verify (conductor/src/verifier.rs lines 9-33) as a
function of the rustc exit status and captured stderr: success is exit
code 0, otherwise the error carries the compiler stderr after the fixed
message prefix. -/
def verify (exitSuccess : Bool) (stderr : String) : Except String Unit :=
  if exitSuccess then Except.ok ()
  else Except.error ("Compilation failed:\n" ++ stderr)

/-- Embeds process_unit (conductor/src/main.rs lines 105-133), parametrized
by the oracle result (llm.transpile) and by the rustc outcome seen by
Verifier::verify.  The three terminal transitions write the row exactly as
in the source. -/
def process_unit (tasks : List TaskRow) (id : String)
    (transpiled : Except String String) (verifyExitSuccess : Bool)
    (verifyStderr : String) : List TaskRow :=
  match transpiled with
  | Except.ok rust_code =>
    match verify verifyExitSuccess verifyStderr with
    | Except.ok _ => update_task_state tasks id TaskState.completed (some rust_code) none
    | Except.error e => update_task_state tasks id TaskState.failed (some rust_code) (some e)
  | Except.error e => update_task_state tasks id TaskState.failed none (some e)

/-! ### Conductor runs as operation sequences (main.rs lines 74-98) -/

/-- A durable-store operation issued by the conductor. -/
inductive DbOp where
  | create (id atomic_unit_id : String)
  | update (id : String) (state : TaskState) (code error : Option String)
deriving DecidableEq

/-- Applies one store operation. -/
def applyOp (tasks : List TaskRow) : DbOp → List TaskRow
  | DbOp.create id auid => create_task tasks id auid
  | DbOp.update id st c e => update_task_state tasks id st c e

/-- Applies a sequence of store operations in order. -/
def applyOps (tasks : List TaskRow) (ops : List DbOp) : List TaskRow :=
  ops.foldl applyOp tasks

/-- External results for one unit: the oracle reply and the rustc outcome. -/
structure OracleOutcome where
  transpiled : Except String String
  verifyExitSuccess : Bool
  verifyStderr : String

/-- The store operations issued by process_unit for one unit, mirroring the
three branches of conductor/src/main.rs lines 105-133. -/
def processUnitOps (id : String) (o : OracleOutcome) : List DbOp :=
  match o.transpiled with
  | Except.ok rust_code =>
    match verify o.verifyExitSuccess o.verifyStderr with
    | Except.ok _ => [DbOp.update id TaskState.completed (some rust_code) none]
    | Except.error e => [DbOp.update id TaskState.failed (some rust_code) (some e)]
  | Except.error e => [DbOp.update id TaskState.failed none (some e)]

/-- The store operations for one dispatched unit (main.rs lines 79-85):
create_task with the unit id passed for both arguments, the IN_PROGRESS
update, then the process_unit writes. -/
def dispatchOps (id : String) (o : OracleOutcome) : List DbOp :=
  [DbOp.create id id, DbOp.update id TaskState.inProgress none none] ++ processUnitOps id o

/-- One conductor run over a build order (main.rs lines 74-98): for each
batch, each unit id present in the unit map is dispatched.  The run is
modeled as one sequential interleaving; every theorem below about it is
proved through a per-operation invariant, so it holds for any interleaving
of the per-unit operations as well. -/
def conductorOps (batches : List (List String)) (known : String → Bool)
    (oracle : String → OracleOutcome) : List DbOp :=
  (batches.map (fun b =>
    ((b.filter known).map (fun id => dispatchOps id (oracle id))).flatten)).flatten

/-! ## Slicer: src/slicer/src/main.rs -/

/-- Embeds struct TypeRegistry (slicer/src/main.rs lines 22-32).  The four
HashMaps become functions from keys to optional values (files are plain
strings); includes maps a file to its recorded directives in order. -/
structure TypeRegistry where
  types : String → Option String
  type_sources : String → Option String
  includes : String → List String
  macros : String → Option String

/-- Registry with no entries, TypeRegistry::new / Default. -/
def emptyRegistry : TypeRegistry :=
  { types := fun _ => none, type_sources := fun _ => none,
    includes := fun _ => [], macros := fun _ => none }

/-- Whether a character occurs in a string, Rust str::contains(char);
stated over the character list so that it evaluates by structural
recursion. -/
def strContainsChar (s : String) (c : Char) : Bool := s.toList.contains c

/-- Embeds TypeRegistry::register_type (slicer/src/main.rs lines 39-57),
with the replacement condition written exactly as in the source.  Rust
String::len counts UTF-8 bytes; the definitions compared here are modeled
with String.length, which agrees on ASCII text. -/
def register_type (r : TypeRegistry) (name definition source_file : String) : TypeRegistry :=
  let should_insert :=
    match r.types name with
    | none => true
    | some existing =>
      let new_has_body := strContainsChar definition '\x7b'
      let old_has_body := strContainsChar existing '\x7b'
      (new_has_body && !old_has_body) ||
        (!old_has_body && decide (definition.length > existing.length))
  if should_insert then
    { r with
      types := fun n => if n = name then some definition else r.types n,
      type_sources := fun n => if n = name then some source_file else r.type_sources n }
  else r

/-- Embeds TypeRegistry::get_type (slicer/src/main.rs lines 59-61). -/
def get_type (r : TypeRegistry) (name : String) : Option String :=
  r.types name

/-- Embeds TypeRegistry::register_macro (lines 67-71): first writer wins. -/
def register_macro (r : TypeRegistry) (name definition : String) : TypeRegistry :=
  match r.macros name with
  | some _ => r
  | none => { r with macros := fun n => if n = name then some definition else r.macros n }

/-! ### Concrete syntax trees

A tree-sitter node has a kind, the covered source text (utf8_text), and an
ordered list of children, each optionally tagged with a field name.  The
node and its child list are a mutual inductive so that structural recursion
and induction stay available. -/

mutual
/-- A tree-sitter syntax node: kind, covered source text, children. -/
inductive CNode : Type where
  | mk : String → String → CForest → CNode
/-- The ordered children of a node, each with an optional field name. -/
inductive CForest : Type where
  | nil : CForest
  | cons : Option String → CNode → CForest → CForest
end

/-- The node kind, Node::kind. -/
def CNode.kind : CNode → String
  | CNode.mk k _ _ => k

/-- The source text covered by the node, Node::utf8_text. -/
def CNode.text : CNode → String
  | CNode.mk _ t _ => t

/-- The children of a node. -/
def CNode.children : CNode → CForest
  | CNode.mk _ _ cs => cs

/-- Node::child_by_field_name: the first child carrying the field name. -/
def childByField : CForest → String → Option CNode
  | CForest.nil, _ => none
  | CForest.cons f c rest, name =>
    if f = some name then some c else childByField rest name

/-- The node-local match of extract_info_safe (slicer/src/main.rs lines
350-370): a call_expression pushes the text of its function field child
onto the dependency list, a type_identifier pushes its own text onto the
type list, each deduplicated by a contains check before pushing. -/
def extractInfoStep (kind text : String) (children : CForest)
    (acc : List String × List String) : List String × List String :=
  if kind = "call_expression" then
    match childByField children "function" with
    | some fn =>
      if acc.1.contains fn.text then acc else (acc.1 ++ [fn.text], acc.2)
    | none => acc
  else if kind = "type_identifier" then
    if acc.2.contains text then acc else (acc.1, acc.2 ++ [text])
  else acc

mutual
/-- Embeds extract_info_safe (slicer/src/main.rs lines 344-377): the
node-local match (extractInfoStep) followed by the in-order walk of the
children. -/
def extract_info_safe : CNode → List String × List String → List String × List String
  | CNode.mk kind text children, acc =>
    extractInfoForest children (extractInfoStep kind text children acc)
/-- The child loop of extract_info_safe. -/
def extractInfoForest : CForest → List String × List String → List String × List String
  | CForest.nil, acc => acc
  | CForest.cons _ c rest, acc => extractInfoForest rest (extract_info_safe c acc)
end

mutual
/-- Embeds find_identifier_safe (slicer/src/main.rs lines 329-341): the
first node of kind identifier in a pre-order walk. -/
def find_identifier_safe : CNode → Option String
  | CNode.mk kind text children =>
    if kind = "identifier" then some text
    else findIdentifierForest children
/-- The child loop of find_identifier_safe. -/
def findIdentifierForest : CForest → Option String
  | CForest.nil => none
  | CForest.cons _ c rest =>
    match find_identifier_safe c with
    | some s => some s
    | none => findIdentifierForest rest
end

/-- Embeds extract_function_name (slicer/src/main.rs lines 319-326).  When
the node is a function_definition with a declarator field, only the
declarator subtree is searched; the result is returned even when it is
none. -/
def extract_function_name : CNode → Option String
  | CNode.mk kind text children =>
    if kind = "function_definition" then
      match childByField children "declarator" with
      | some decl => find_identifier_safe decl
      | none => find_identifier_safe (CNode.mk kind text children)
    else find_identifier_safe (CNode.mk kind text children)

/-- One iteration of the required_headers loop of
extract_functions_from_file (slicer/src/main.rs lines 298-303): look the
type up in the registry and append the definition unless already present. -/
def requiredHeadersStep (r : TypeRegistry) (acc : List String) (tn : String) : List String :=
  match get_type r tn with
  | some d => if acc.contains d then acc else acc ++ [d]
  | none => acc

/-- Embeds the required_headers loop of extract_functions_from_file
(slicer/src/main.rs lines 296-304): registry lookups of the used types in
order, appended unless the definition text is already present. -/
def requiredHeaders (r : TypeRegistry) (used_types : List String) : List String :=
  used_types.foldl (requiredHeadersStep r) []

/-- Embeds the per-match body of extract_functions_from_file
(slicer/src/main.rs lines 279-312): fallback name unknown_fn, verbatim
code text, dependency and type walk from empty accumulators, and the
required_headers loop. -/
def sliceFunction (r : TypeRegistry) (n : CNode) : AtomicUnit :=
  let name := (extract_function_name n).getD "unknown_fn"
  let info := extract_info_safe n ([], [])
  let required_headers := requiredHeaders r info.2
  ⟨name, n.text, info.1, required_headers⟩

/-- Embeds the match loop of extract_functions_from_file: one AtomicUnit
per function_definition node, in order. -/
def extract_functions_from_file (r : TypeRegistry) (fns : List CNode) : List AtomicUnit :=
  fns.map (sliceFunction r)

mutual
/-- Whether some node in the subtree has kind type_identifier with the
given text. -/
def hasTypeIdent : CNode → String → Bool
  | CNode.mk kind text children, t =>
    (kind = "type_identifier" && text = t) || hasTypeIdentForest children t
/-- Forest version of hasTypeIdent. -/
def hasTypeIdentForest : CForest → String → Bool
  | CForest.nil, _ => false
  | CForest.cons _ c rest, t => hasTypeIdent c t || hasTypeIdentForest rest t
end

mutual
/-- Whether some node in the subtree has kind identifier. -/
def hasIdent : CNode → Bool
  | CNode.mk kind _ children => kind = "identifier" || hasIdentForest children
/-- Forest version of hasIdent. -/
def hasIdentForest : CForest → Bool
  | CForest.nil => false
  | CForest.cons _ c rest => hasIdent c || hasIdentForest rest
end

/-! ## Mapper: src/mapper/src/main.rs

The graph vertices are the positions 0, 1, ... of the units in units.json,
matching the insertion order of petgraph node indices in main.rs lines
74-78.  The nodes HashMap is rebuilt by nodeIdx: successive inserts mean
the last unit with a given id wins.  tarjan_scc and toposort are petgraph
library calls; the theorems below take their documented contracts (a
partition of the vertices into components, and a topological order of the
condensed graph) as hypotheses. -/

/-- The node index the nodes HashMap assigns to an id (main.rs lines 74-78):
the map is filled in unit order, so the last unit with the id wins. -/
def nodeIdx (units : List AtomicUnit) (s : String) : Option Nat :=
  (List.range units.length).foldl
    (fun acc k => if (units.getD k defaultUnit).id = s then some k else acc) none

/-- The edge list built in main.rs lines 80-90: for each unit, one edge from
the node of its id to the node of every dependency found in the map;
dependencies absent from the map are dropped.  The none branch for the
source node is unreachable (its id was just inserted) and yields no edges. -/
def edges (units : List AtomicUnit) : List (Nat × Nat) :=
  (units.map (fun u =>
    match nodeIdx units u.id with
    | some fi => u.dependencies.filterMap (fun d => (nodeIdx units d).map (fun j => (fi, j)))
    | none => [])).flatten

/-- The SCC index of a vertex, the node_to_scc map of main.rs lines 95-101.
Under the partition hypothesis every vertex lies in exactly one component,
so the first match below and the last-write-wins HashMap agree. -/
def sccOf (sccs : List (List Nat)) (v : Nat) : Nat :=
  sccs.findIdx (fun scc => scc.contains v)

/-- Embeds struct BuildOrderBatch (mapper/src/main.rs lines 28-36). -/
structure BuildOrderBatch where
  units : List String
  is_super_node : Bool
  scc_size : Option Nat
  refactoring_difficulty : Option String
deriving DecidableEq

/-- Default batch used for total list indexing in theorem statements. -/
def defaultBatch : BuildOrderBatch := ⟨[], false, none, none⟩

/-- Embeds the batch construction of main.rs lines 134-163 for one SCC:
labels of the member vertices, the super-node flag, the optional SCC size
and the difficulty ladder, written exactly as the source if-chain. -/
def emitBatch (units : List AtomicUnit) (scc : List Nat) : BuildOrderBatch :=
  let unit_ids := scc.map (fun v => (units.getD v defaultUnit).id)
  let is_super_node := decide (unit_ids.length > 1)
  let refactoring_difficulty :=
    if unit_ids.length > 20 then some "Very High"
    else if unit_ids.length > 10 then some "High"
    else if unit_ids.length > 5 then some "Medium"
    else if is_super_node then some "Low"
    else none
  { units := unit_ids,
    is_super_node := is_super_node,
    scc_size := if is_super_node then some scc.length else none,
    refactoring_difficulty := refactoring_difficulty }

/-- Embeds main.rs lines 124-163: the toposort of the condensed graph is
reversed and one batch is emitted per SCC in that order. -/
def buildOrderBatches (units : List AtomicUnit) (sccs : List (List Nat))
    (topo : List Nat) : List BuildOrderBatch :=
  topo.reverse.map (fun k => emitBatch units (sccs.getD k []))

/-- Embeds the validation-warning loop of main.rs lines 165-172: one stderr
line per emitted batch whose scc_size exceeds 20.  This is the only warning
the mapper emits about the graph. -/
def sizeWarnings (batches : List BuildOrderBatch) : List String :=
  batches.filterMap (fun b =>
    match b.scc_size with
    | some size =>
      if size > 20 then
        some ("WARNING: Super Node with " ++ toString size ++
          " functions detected. Consider breaking this cycle.")
      else none
    | none => none)

/-- Removal of a dangling dependency string from every dependency list;
used to state that such entries have no effect on the mapper output. -/
def dropDanglingDep (units : List AtomicUnit) (x : String) : List AtomicUnit :=
  units.map (fun u => { u with dependencies := u.dependencies.filter (fun d => d ≠ x) })

/-! ## Helper lemmas: conductor store -/

/-- Rows matched by an update carry exactly the written column values. -/
theorem update_task_state_mem (tasks : List TaskRow) (id : String) (st : TaskState)
    (c e : Option String) :
    ∀ t ∈ update_task_state tasks id st c e, t.id = id →
      t.state = st ∧ t.code_rust = c ∧ t.error_log = e := by
  intro t ht hid
  unfold update_task_state at ht
  obtain ⟨t0, _, hmap⟩ := List.mem_map.mp ht
  by_cases h0 : t0.id == id
  · simp [h0] at hmap
    subst hmap
    exact ⟨rfl, rfl, rfl⟩
  · simp [h0] at hmap
    subst hmap
    exact absurd (beq_iff_eq.mpr hid) (by simpa using h0)

/-- An update touches some row whenever a row with the id exists. -/
theorem update_task_state_row_exists (tasks : List TaskRow) (id : String) (st : TaskState)
    (c e : Option String) (h : tasks.any (fun t => t.id == id) = true) :
    ∃ t ∈ update_task_state tasks id st c e, t.id = id := by
  obtain ⟨t0, ht0, hid0⟩ := List.any_eq_true.mp h
  refine ⟨{ t0 with state := st, code_rust := c, error_log := e }, ?_, ?_⟩
  · unfold update_task_state
    exact List.mem_map.mpr ⟨t0, ht0, by simp [hid0]⟩
  · simpa using beq_iff_eq.mp hid0

/-- A create on an existing id leaves the table unchanged. -/
theorem create_task_noop (tasks : List TaskRow) (id auid : String)
    (h : tasks.any (fun t => t.id == id) = true) :
    create_task tasks id auid = tasks := by
  unfold create_task
  simp [h]

/-! ## Claims C3, C5, C8, C10 (conductor) -/

/-- C3 counterexample: the claim fails on the code.  A row for unit a that
reached COMPLETED with stored code is replayed by a second conductor run:
create_task is a no-op, but the IN_PROGRESS update rewrites code_rust and
error_log to NULL, so the stored code some "fn a()" is lost. -/
theorem c3_second_run_loses_data :
    ((update_task_state
        (create_task
          [({ id := "a", atomic_unit_id := "a", state := TaskState.completed,
              code_rust := some "fn a()", error_log := none } : TaskRow)] "a" "a")
        "a" TaskState.inProgress none none).map (fun t => t.code_rust) = [none]) ∧
    ({ id := "a", atomic_unit_id := "a", state := TaskState.completed,
       code_rust := some "fn a()", error_log := none } : TaskRow).code_rust ≠ none := by
  decide

/-- C3 amended: once a task row exists (in particular in a terminal state),
the second run leaves it intact through create_task, but the runs
IN_PROGRESS update overwrites the row, setting code_rust and error_log to
NULL; stored data is not preserved across the second run. -/
theorem c3_second_run_overwrite (tasks : List TaskRow) (id auid : String)
    (hrow : tasks.any (fun t => t.id == id) = true) :
    create_task tasks id auid = tasks ∧
    ∀ t ∈ update_task_state tasks id TaskState.inProgress none none, t.id = id →
      t.state = TaskState.inProgress ∧ t.code_rust = none ∧ t.error_log = none :=
  ⟨create_task_noop tasks id auid hrow,
   update_task_state_mem tasks id TaskState.inProgress none none⟩

/-- Witness for c3_second_run_overwrite at a concrete terminal row. -/
theorem c3_second_run_overwrite_witness :
    create_task
      [({ id := "a", atomic_unit_id := "a", state := TaskState.failed,
          code_rust := some "x", error_log := some "e" } : TaskRow)] "a" "b" =
      [({ id := "a", atomic_unit_id := "a", state := TaskState.failed,
          code_rust := some "x", error_log := some "e" } : TaskRow)] :=
  (c3_second_run_overwrite
    [({ id := "a", atomic_unit_id := "a", state := TaskState.failed,
        code_rust := some "x", error_log := some "e" } : TaskRow)] "a" "b" (by decide)).1

/-- C5: when verification fails the row is written FAILED carrying the full
candidate code and the compiler stderr (behind the fixed message prefix of
Verifier::verify); when transpilation fails the row is written FAILED with
the error message and NULL code. -/
theorem c5_failure_paths (tasks : List TaskRow) (id candidate stderr errMsg : String)
    (hrow : tasks.any (fun t => t.id == id) = true) :
    (∀ t ∈ process_unit tasks id (Except.ok candidate) false stderr, t.id = id →
        t.state = TaskState.failed ∧ t.code_rust = some candidate ∧
        t.error_log = some ("Compilation failed:\n" ++ stderr)) ∧
    (∃ t ∈ process_unit tasks id (Except.ok candidate) false stderr, t.id = id) ∧
    (∀ t ∈ process_unit tasks id (Except.error errMsg) true stderr, t.id = id →
        t.state = TaskState.failed ∧ t.code_rust = none ∧ t.error_log = some errMsg) ∧
    (∃ t ∈ process_unit tasks id (Except.error errMsg) true stderr, t.id = id) := by
  refine ⟨?_, ?_, ?_, ?_⟩
  · simpa [process_unit, verify] using
      update_task_state_mem tasks id TaskState.failed (some candidate)
        (some ("Compilation failed:\n" ++ stderr))
  · simpa [process_unit, verify] using
      update_task_state_row_exists tasks id TaskState.failed (some candidate)
        (some ("Compilation failed:\n" ++ stderr)) hrow
  · simpa [process_unit] using
      update_task_state_mem tasks id TaskState.failed none (some errMsg)
  · simpa [process_unit] using
      update_task_state_row_exists tasks id TaskState.failed none (some errMsg) hrow

/-- Witness for c5_failure_paths: the failed-verification row of a concrete
one-row table. -/
theorem c5_failure_paths_witness :
    ({ id := "a", atomic_unit_id := "a", state := TaskState.failed,
       code_rust := some "fn x", error_log := some ("Compilation failed:\n" ++ "boom") } :
        TaskRow).state = TaskState.failed ∧
    ({ id := "a", atomic_unit_id := "a", state := TaskState.failed,
       code_rust := some "fn x", error_log := some ("Compilation failed:\n" ++ "boom") } :
        TaskRow).code_rust = some "fn x" ∧
    ({ id := "a", atomic_unit_id := "a", state := TaskState.failed,
       code_rust := some "fn x", error_log := some ("Compilation failed:\n" ++ "boom") } :
        TaskRow).error_log = some ("Compilation failed:\n" ++ "boom") :=
  (c5_failure_paths
    [({ id := "a", atomic_unit_id := "a", state := TaskState.pending,
        code_rust := none, error_log := none } : TaskRow)] "a" "fn x" "boom" "err"
    (by decide)).1 _ (by decide) (by decide)

/-- C8: create_task is idempotent.  A repeated call is the identity, and
starting from any table respecting the primary key (at most one row per
id) a call leaves exactly one row with the id. -/
theorem c8_create_task_idempotent (tasks : List TaskRow) (id a1 a2 : String)
    (hpk : tasks.countP (fun t => t.id == id) ≤ 1) :
    create_task (create_task tasks id a1) id a2 = create_task tasks id a1 ∧
    (create_task tasks id a1).countP (fun t => t.id == id) = 1 := by
  by_cases hany : tasks.any (fun t => t.id == id) = true
  · refine ⟨create_task_noop _ id a2 (by rw [create_task_noop tasks id a1 hany]; exact hany), ?_⟩
    rw [create_task_noop tasks id a1 hany]
    obtain ⟨t0, ht0, hid0⟩ := List.any_eq_true.mp hany
    have hpos : 0 < tasks.countP (fun t => t.id == id) :=
      List.countP_pos_iff.mpr ⟨t0, ht0, hid0⟩
    omega
  · have hcz : tasks.countP (fun t => t.id == id) = 0 := by
      rw [List.countP_eq_zero]
      intro t ht
      exact fun hc => hany (List.any_eq_true.mpr ⟨t, ht, hc⟩)
    have hfirst : create_task tasks id a1 =
        tasks ++ [{ id := id, atomic_unit_id := a1, state := TaskState.pending,
                    code_rust := none, error_log := none }] := by
      unfold create_task
      simp only [hany]
      simp
    refine ⟨?_, ?_⟩
    · refine create_task_noop _ id a2 ?_
      rw [hfirst, List.any_append]
      simp
    · rw [hfirst, List.countP_append, hcz]
      simp

/-- Witness for c8_create_task_idempotent starting from the empty table. -/
theorem c8_create_task_idempotent_witness :
    create_task (create_task [] "a" "a") "a" "a" = create_task [] "a" "a" ∧
    (create_task [] "a" "a").countP (fun t => t.id == "a") = 1 :=
  c8_create_task_idempotent [] "a" "a" "a" (by decide)

/-- One conductor-issued operation preserves the column equality
atomic_unit_id = id, provided a create passes the same string twice. -/
theorem applyOp_selfKeyed (tasks : List TaskRow) (op : DbOp)
    (hop : ∀ i a, op = DbOp.create i a → a = i)
    (hinv : ∀ t ∈ tasks, t.atomic_unit_id = t.id) :
    ∀ t ∈ applyOp tasks op, t.atomic_unit_id = t.id := by
  intro t ht
  match op with
  | DbOp.create i a =>
    have ha : a = i := hop i a rfl
    simp only [applyOp, create_task] at ht
    by_cases hany : tasks.any (fun t => t.id == i) = true
    · rw [if_pos hany] at ht
      exact hinv t ht
    · rw [if_neg hany] at ht
      rcases List.mem_append.mp ht with h | h
      · exact hinv t h
      · simp at h
        subst h
        exact ha
  | DbOp.update i st c e =>
    simp only [applyOp, update_task_state] at ht
    obtain ⟨t0, ht0, hmap⟩ := List.mem_map.mp ht
    by_cases h0 : t0.id == i
    · simp only [h0, if_true] at hmap
      subst hmap
      exact hinv t0 ht0
    · simp only [h0] at hmap
      simp at hmap
      subst hmap
      exact hinv t0 ht0

/-- A sequence of such operations preserves atomic_unit_id = id. -/
theorem applyOps_selfKeyed (ops : List DbOp) :
    ∀ tasks : List TaskRow,
      (∀ op ∈ ops, ∀ i a, op = DbOp.create i a → a = i) →
      (∀ t ∈ tasks, t.atomic_unit_id = t.id) →
      ∀ t ∈ applyOps tasks ops, t.atomic_unit_id = t.id := by
  induction ops with
  | nil => intro tasks _ hinv; simpa [applyOps] using hinv
  | cons op rest ih =>
    intro tasks hgood hinv
    have hstep := applyOp_selfKeyed tasks op (hgood op (by simp)) hinv
    have := ih (applyOp tasks op) (fun o ho => hgood o (by simp [ho])) hstep
    simpa [applyOps] using this

/-- Every create issued by a conductor run passes the unit id for both
arguments (conductor/src/main.rs line 81). -/
theorem conductorOps_creates_selfKeyed (batches : List (List String))
    (known : String → Bool) (oracle : String → OracleOutcome) :
    ∀ op ∈ conductorOps batches known oracle, ∀ i a, op = DbOp.create i a → a = i := by
  intro op hop i a heq
  subst heq
  unfold conductorOps at hop
  rw [List.mem_flatten] at hop
  obtain ⟨l, hl, hopl⟩ := hop
  rw [List.mem_map] at hl
  obtain ⟨b, _, hb⟩ := hl
  subst hb
  rw [List.mem_flatten] at hopl
  obtain ⟨l2, hl2, hopl2⟩ := hopl
  rw [List.mem_map] at hl2
  obtain ⟨uid, _, huid⟩ := hl2
  subst huid
  unfold dispatchOps at hopl2
  rcases List.mem_append.mp hopl2 with h | h
  · simp only [List.mem_cons, List.not_mem_nil, or_false] at h
    rcases h with h | h
    · obtain ⟨h1, h2⟩ := DbOp.create.inj h
      rw [h2, h1]
    · exact absurd h (by simp)
  · unfold processUnitOps at h
    rcases htr : (oracle uid).transpiled with ec | rc
    · rw [htr] at h
      simp at h
    · rw [htr] at h
      rcases hv : verify (oracle uid).verifyExitSuccess (oracle uid).verifyStderr with u | ev
      · rw [hv] at h; simp at h
      · rw [hv] at h; simp at h

/-- C10: every reachable state of the task table along a conductor run
keeps atomic_unit_id equal to id, because the conductor always passes the
unit id for both create_task arguments and updates never touch either
column. -/
theorem c10_atomic_unit_id_eq_id (batches : List (List String)) (known : String → Bool)
    (oracle : String → OracleOutcome) (tasks : List TaskRow) (l₁ l₂ : List DbOp)
    (hsplit : conductorOps batches known oracle = l₁ ++ l₂)
    (hinv : ∀ t ∈ tasks, t.atomic_unit_id = t.id) :
    ∀ t ∈ applyOps tasks l₁, t.atomic_unit_id = t.id := by
  refine applyOps_selfKeyed l₁ tasks ?_ hinv
  intro op hop
  exact conductorOps_creates_selfKeyed batches known oracle op
    (by rw [hsplit]; exact List.mem_append_left l₂ hop)

/-- Witness for c10_atomic_unit_id_eq_id on a one-unit run from the empty
table. -/
theorem c10_atomic_unit_id_eq_id_witness :
    ({ id := "a", atomic_unit_id := "a", state := TaskState.completed,
       code_rust := some "x", error_log := none } : TaskRow).atomic_unit_id =
    ({ id := "a", atomic_unit_id := "a", state := TaskState.completed,
       code_rust := some "x", error_log := none } : TaskRow).id :=
  c10_atomic_unit_id_eq_id [["a"]] (fun _ => true)
    (fun _ => ⟨Except.ok "x", true, ""⟩) []
    [DbOp.create "a" "a", DbOp.update "a" TaskState.inProgress none none,
     DbOp.update "a" TaskState.completed (some "x") none] []
    (by decide) (by decide) _ (by decide)

/-! ## Claim C2 (slicer type registry) -/

/-- C2: evaluation of register_type at the failing input.  The registry
already holds a bodied definition of S; a longer bodied definition arrives,
and contrary to the claim the old, shorter text is kept: the replacement
condition of slicer/src/main.rs line 49 requires the existing entry to lack
a body, so a bodied entry is never replaced. -/
theorem c2_register_type_keeps_shorter :
    (register_type
      { emptyRegistry with
          types := fun n => if n = "S" then some "struct S \x7b int x; \x7d" else none }
      "S" "struct S \x7b int x; int y; \x7d" "b.h").types "S" =
      some "struct S \x7b int x; \x7d" := by
  decide

/-! ## Helper lemmas: slicer extraction -/

mutual
/-- A subtree with no identifier node yields no name. -/
theorem find_identifier_safe_none : ∀ n : CNode, hasIdent n = false →
    find_identifier_safe n = none
  | CNode.mk kind text children => by
    intro h
    simp only [hasIdent, Bool.or_eq_false_iff, decide_eq_false_iff_not] at h
    simp only [find_identifier_safe, if_neg h.1]
    exact findIdentifierForest_none children h.2
/-- Forest version of find_identifier_safe_none. -/
theorem findIdentifierForest_none : ∀ f : CForest, hasIdentForest f = false →
    findIdentifierForest f = none
  | CForest.nil => by intro _; rfl
  | CForest.cons fn c rest => by
    intro h
    simp only [hasIdentForest, Bool.or_eq_false_iff] at h
    simp only [findIdentifierForest, find_identifier_safe_none c h.1]
    exact findIdentifierForest_none rest h.2
end

/-- A child found by field name lies in the forest, so it inherits the
absence of identifier nodes. -/
theorem childByField_hasIdent_false : ∀ (f : CForest) (s : String) (c : CNode),
    hasIdentForest f = false → childByField f s = some c → hasIdent c = false
  | CForest.nil, s, c => by
    intro _ hc
    exact absurd hc (by simp [childByField])
  | CForest.cons fn c0 rest, s, c => by
    intro hf hc
    simp only [hasIdentForest, Bool.or_eq_false_iff] at hf
    simp only [childByField] at hc
    by_cases hfn : fn = some s
    · rw [if_pos hfn] at hc
      cases hc
      exact hf.1
    · rw [if_neg hfn] at hc
      exact childByField_hasIdent_false rest s c hf.2 hc

/-- Both accumulator components only grow across the node-local step. -/
theorem extractInfoStep_append (k t : String) (cs : CForest)
    (acc : List String × List String) :
    (∃ l, (extractInfoStep k t cs acc).1 = acc.1 ++ l) ∧
    (∃ l, (extractInfoStep k t cs acc).2 = acc.2 ++ l) := by
  unfold extractInfoStep
  by_cases h1 : k = "call_expression"
  · simp only [h1, if_true]
    cases hcf : childByField cs "function" with
    | none => exact ⟨⟨[], by simp⟩, ⟨[], by simp⟩⟩
    | some fn =>
      by_cases h3 : fn.text ∈ acc.1
      · simp [h3]
      · simp [h3]
  · by_cases h2 : k = "type_identifier"
    · simp only [h1, if_false, h2, if_true]
      by_cases h3 : t ∈ acc.2
      · simp [h3]
      · simp [h3]
    · simp [h1, h2]

mutual
/-- Both accumulator components only grow across a subtree walk. -/
theorem extract_info_safe_append : ∀ (n : CNode) (acc : List String × List String),
    (∃ l, (extract_info_safe n acc).1 = acc.1 ++ l) ∧
    (∃ l, (extract_info_safe n acc).2 = acc.2 ++ l)
  | CNode.mk kind text children, acc => by
    obtain ⟨⟨l1, e1⟩, ⟨l2, e2⟩⟩ := extractInfoStep_append kind text children acc
    obtain ⟨⟨m1, f1⟩, ⟨m2, f2⟩⟩ :=
      extractInfoForest_append children (extractInfoStep kind text children acc)
    refine ⟨⟨l1 ++ m1, ?_⟩, ⟨l2 ++ m2, ?_⟩⟩
    · simp only [extract_info_safe]
      rw [f1, e1, List.append_assoc]
    · simp only [extract_info_safe]
      rw [f2, e2, List.append_assoc]
/-- Forest version of extract_info_safe_append. -/
theorem extractInfoForest_append : ∀ (f : CForest) (acc : List String × List String),
    (∃ l, (extractInfoForest f acc).1 = acc.1 ++ l) ∧
    (∃ l, (extractInfoForest f acc).2 = acc.2 ++ l)
  | CForest.nil, acc =>
    ⟨⟨[], by simp [extractInfoForest]⟩, ⟨[], by simp [extractInfoForest]⟩⟩
  | CForest.cons fn c rest, acc => by
    obtain ⟨⟨l1, e1⟩, ⟨l2, e2⟩⟩ := extract_info_safe_append c acc
    obtain ⟨⟨m1, f1⟩, ⟨m2, f2⟩⟩ := extractInfoForest_append rest (extract_info_safe c acc)
    refine ⟨⟨l1 ++ m1, ?_⟩, ⟨l2 ++ m2, ?_⟩⟩
    · simp only [extractInfoForest]
      rw [f1, e1, List.append_assoc]
    · simp only [extractInfoForest]
      rw [f2, e2, List.append_assoc]
end

/-- A type_identifier node records its own text in the type accumulator. -/
theorem extractInfoStep_typeIdent (t : String) (cs : CForest)
    (acc : List String × List String) :
    t ∈ (extractInfoStep "type_identifier" t cs acc).2 := by
  unfold extractInfoStep
  rw [if_neg (by decide), if_pos rfl]
  by_cases h3 : t ∈ acc.2
  · simp [h3]
  · simp [h3]

mutual
/-- Every type_identifier text in the subtree (and everything already in
the accumulator) ends up in the type accumulator of the walk. -/
theorem extract_info_safe_types_complete : ∀ (n : CNode) (t : String)
    (acc : List String × List String),
    hasTypeIdent n t = true ∨ t ∈ acc.2 → t ∈ (extract_info_safe n acc).2
  | CNode.mk kind text children, t, acc => by
    intro h
    simp only [hasTypeIdent, Bool.or_eq_true, Bool.and_eq_true, decide_eq_true_eq] at h
    simp only [extract_info_safe]
    rcases h with (⟨hk, ht⟩ | hforest) | hacc
    · subst hk
      subst ht
      exact extractInfoForest_types_complete children text _
        (Or.inr (extractInfoStep_typeIdent text children acc))
    · exact extractInfoForest_types_complete children t _ (Or.inl hforest)
    · obtain ⟨_, ⟨l2, e2⟩⟩ := extractInfoStep_append kind text children acc
      exact extractInfoForest_types_complete children t _
        (Or.inr (by rw [e2]; exact List.mem_append_left _ hacc))
/-- Forest version of extract_info_safe_types_complete. -/
theorem extractInfoForest_types_complete : ∀ (f : CForest) (t : String)
    (acc : List String × List String),
    hasTypeIdentForest f t = true ∨ t ∈ acc.2 → t ∈ (extractInfoForest f acc).2
  | CForest.nil, t, acc => by
    intro h
    rcases h with h | h
    · exact absurd h (by simp [hasTypeIdentForest])
    · simpa [extractInfoForest] using h
  | CForest.cons fn c rest, t, acc => by
    intro h
    simp only [hasTypeIdentForest, Bool.or_eq_true] at h
    simp only [extractInfoForest]
    rcases h with (hc | hrest) | hacc
    · exact extractInfoForest_types_complete rest t _
        (Or.inr (extract_info_safe_types_complete c t acc (Or.inl hc)))
    · exact extractInfoForest_types_complete rest t _ (Or.inl hrest)
    · obtain ⟨_, ⟨l2, e2⟩⟩ := extract_info_safe_append c acc
      exact extractInfoForest_types_complete rest t _
        (Or.inr (by rw [e2]; exact List.mem_append_left _ hacc))
end

/-- Appending one fresh element keeps a list duplicate-free. -/
theorem nodupSnoc (l : List String) (a : String) (hl : l.Nodup) (ha : a ∉ l) :
    (l ++ [a]).Nodup := by
  rw [List.nodup_append]
  exact ⟨hl, List.nodup_singleton a, by simpa [List.disjoint_singleton]⟩

/-- The node-local step preserves freedom from duplicates. -/
theorem extractInfoStep_nodup (k t : String) (cs : CForest)
    (acc : List String × List String) (h1 : acc.1.Nodup) (h2 : acc.2.Nodup) :
    (extractInfoStep k t cs acc).1.Nodup ∧ (extractInfoStep k t cs acc).2.Nodup := by
  unfold extractInfoStep
  by_cases hk : k = "call_expression"
  · simp only [hk, if_true]
    cases hcf : childByField cs "function" with
    | none => exact ⟨h1, h2⟩
    | some fn =>
      by_cases h3 : fn.text ∈ acc.1
      · simp [h3, h1, h2]
      · have hc : acc.1.contains fn.text = false := by simpa using h3
        simp only [hc, Bool.false_eq_true, if_false]
        exact ⟨nodupSnoc acc.1 fn.text h1 h3, h2⟩
  · by_cases hk2 : k = "type_identifier"
    · simp only [hk, if_false, hk2, if_true]
      by_cases h3 : t ∈ acc.2
      · simp [h3, h1, h2]
      · have hc : acc.2.contains t = false := by simpa using h3
        simp only [hc, Bool.false_eq_true, if_false]
        exact ⟨h1, nodupSnoc acc.2 t h2 h3⟩
    · simp [hk, hk2, h1, h2]

mutual
/-- The walk preserves freedom from duplicates in both accumulators. -/
theorem extract_info_safe_nodup : ∀ (n : CNode) (acc : List String × List String),
    acc.1.Nodup → acc.2.Nodup →
    (extract_info_safe n acc).1.Nodup ∧ (extract_info_safe n acc).2.Nodup
  | CNode.mk kind text children, acc => by
    intro h1 h2
    have hstep := extractInfoStep_nodup kind text children acc h1 h2
    simp only [extract_info_safe]
    exact extractInfoForest_nodup children _ hstep.1 hstep.2
/-- Forest version of extract_info_safe_nodup. -/
theorem extractInfoForest_nodup : ∀ (f : CForest) (acc : List String × List String),
    acc.1.Nodup → acc.2.Nodup →
    (extractInfoForest f acc).1.Nodup ∧ (extractInfoForest f acc).2.Nodup
  | CForest.nil, acc => by
    intro h1 h2
    simpa [extractInfoForest] using ⟨h1, h2⟩
  | CForest.cons fn c rest, acc => by
    intro h1 h2
    have hc := extract_info_safe_nodup c acc h1 h2
    simp only [extractInfoForest]
    exact extractInfoForest_nodup rest _ hc.1 hc.2
end

/-- One required_headers iteration never removes entries. -/
theorem requiredHeadersStep_mono (r : TypeRegistry) (acc : List String) (tn x : String)
    (hx : x ∈ acc) : x ∈ requiredHeadersStep r acc tn := by
  unfold requiredHeadersStep
  cases get_type r tn with
  | none => exact hx
  | some d =>
    by_cases h3 : d ∈ acc
    · simp [h3, hx]
    · have hc : acc.contains d = false := by simpa using h3
      simp only [hc, Bool.false_eq_true, if_false]
      exact List.mem_append_left _ hx

/-- The required_headers fold never removes entries. -/
theorem requiredHeaders_foldl_mono (r : TypeRegistry) :
    ∀ (used : List String) (acc : List String) (x : String), x ∈ acc →
      x ∈ used.foldl (requiredHeadersStep r) acc
  | [], _, _, hx => hx
  | tn :: rest, acc, x, hx =>
    requiredHeaders_foldl_mono r rest (requiredHeadersStep r acc tn) x
      (requiredHeadersStep_mono r acc tn x hx)

/-- Every registered type among the used types contributes its definition
text to the fold result. -/
theorem requiredHeaders_foldl_mem (r : TypeRegistry) :
    ∀ (used : List String) (acc : List String) (t d : String), t ∈ used →
      get_type r t = some d → d ∈ used.foldl (requiredHeadersStep r) acc
  | [], _, _, _, ht, _ => absurd ht (List.not_mem_nil _)
  | tn :: rest, acc, t, d, ht, hd => by
    rcases List.mem_cons.mp ht with h | h
    · subst h
      refine requiredHeaders_foldl_mono r rest _ d ?_
      unfold requiredHeadersStep
      rw [hd]
      by_cases h3 : d ∈ acc
      · simp [h3]
      · simp [h3]
    · exact requiredHeaders_foldl_mem r rest _ t d h hd

/-- One required_headers iteration preserves freedom from duplicates. -/
theorem requiredHeadersStep_nodup (r : TypeRegistry) (acc : List String) (tn : String)
    (h : acc.Nodup) : (requiredHeadersStep r acc tn).Nodup := by
  unfold requiredHeadersStep
  cases get_type r tn with
  | none => exact h
  | some d =>
    by_cases h3 : d ∈ acc
    · simp [h3, h]
    · have hc : acc.contains d = false := by simpa using h3
      simp only [hc, Bool.false_eq_true, if_false]
      exact nodupSnoc acc d h h3

/-- The required_headers fold preserves freedom from duplicates. -/
theorem requiredHeaders_foldl_nodup (r : TypeRegistry) :
    ∀ (used : List String) (acc : List String), acc.Nodup →
      (used.foldl (requiredHeadersStep r) acc).Nodup
  | [], _, h => h
  | tn :: rest, acc, h =>
    requiredHeaders_foldl_nodup r rest _ (requiredHeadersStep_nodup r acc tn h)

/-- A function_definition subtree without identifier nodes yields no name:
both return paths of extract_function_name search identifier-free
subtrees. -/
theorem extract_function_name_none : ∀ n : CNode, hasIdent n = false →
    extract_function_name n = none
  | CNode.mk kind text children => by
    intro hnoid
    simp only [extract_function_name]
    by_cases hk : kind = "function_definition"
    · rw [if_pos hk]
      cases hcf : childByField children "declarator" with
      | none => exact find_identifier_safe_none _ hnoid
      | some decl =>
        have hforest : hasIdentForest children = false := by
          simp only [hasIdent, Bool.or_eq_false_iff] at hnoid
          exact hnoid.2
        exact find_identifier_safe_none decl
          (childByField_hasIdent_false children "declarator" decl hforest hcf)
    · rw [if_neg hk]
      exact find_identifier_safe_none _ hnoid

/-! ## Claims C4 and C9 (slicer) -/

/-- C4: for every emitted AtomicUnit, each type name occurring as a
type_identifier in the function-definition subtree whose name is in the
registry has its registered definition text in required_headers, and both
dependencies and required_headers are free of duplicates. -/
theorem c4_closure_and_dedup (r : TypeRegistry) (n : CNode) :
    (∀ t, hasTypeIdent n t = true → ∀ d, get_type r t = some d →
        d ∈ (sliceFunction r n).required_headers) ∧
    (sliceFunction r n).dependencies.Nodup ∧
    (sliceFunction r n).required_headers.Nodup := by
  refine ⟨?_, ?_, ?_⟩
  · intro t ht d hd
    have htypes : t ∈ (extract_info_safe n ([], [])).2 :=
      extract_info_safe_types_complete n t ([], []) (Or.inl ht)
    simp only [sliceFunction, requiredHeaders]
    exact requiredHeaders_foldl_mem r _ [] t d htypes hd
  · have h := extract_info_safe_nodup n ([], []) List.nodup_nil List.nodup_nil
    simpa [sliceFunction] using h.1
  · simp only [sliceFunction, requiredHeaders]
    exact requiredHeaders_foldl_nodup r _ [] List.nodup_nil

/-- Witness for c4_closure_and_dedup: a function over a parameter of the
registered type S. -/
theorem c4_closure_and_dedup_witness :
    "struct S \x7b int x; \x7d" ∈
      (sliceFunction
        { emptyRegistry with
            types := fun nm => if nm = "S" then some "struct S \x7b int x; \x7d" else none }
        (CNode.mk "function_definition" "void f(S p) \x7b g(p); \x7d"
          (CForest.cons (some "declarator") (CNode.mk "identifier" "f" CForest.nil)
            (CForest.cons none (CNode.mk "type_identifier" "S" CForest.nil)
              CForest.nil)))).required_headers ∧
    (sliceFunction
        { emptyRegistry with
            types := fun nm => if nm = "S" then some "struct S \x7b int x; \x7d" else none }
        (CNode.mk "function_definition" "void f(S p) \x7b g(p); \x7d"
          (CForest.cons (some "declarator") (CNode.mk "identifier" "f" CForest.nil)
            (CForest.cons none (CNode.mk "type_identifier" "S" CForest.nil)
              CForest.nil)))).dependencies.Nodup := by
  have h := c4_closure_and_dedup
    { emptyRegistry with
        types := fun nm => if nm = "S" then some "struct S \x7b int x; \x7d" else none }
    (CNode.mk "function_definition" "void f(S p) \x7b g(p); \x7d"
      (CForest.cons (some "declarator") (CNode.mk "identifier" "f" CForest.nil)
        (CForest.cons none (CNode.mk "type_identifier" "S" CForest.nil)
          CForest.nil)))
  exact ⟨h.1 "S" (by decide) "struct S \x7b int x; \x7d" (by decide), h.2.1⟩

/-- C9: a function_definition with no identifier node anywhere in its
subtree (hence none in its declarator) is still emitted, with the fallback
id unknown_fn. -/
theorem c9_unknown_fn_fallback (r : TypeRegistry) (fns : List CNode) (n : CNode)
    (hmem : n ∈ fns) (hnoid : hasIdent n = false) :
    (extract_functions_from_file r fns).length = fns.length ∧
    sliceFunction r n ∈ extract_functions_from_file r fns ∧
    (sliceFunction r n).id = "unknown_fn" := by
  refine ⟨by simp [extract_functions_from_file], List.mem_map_of_mem _ hmem, ?_⟩
  simp [sliceFunction, extract_function_name_none n hnoid]

/-- Witness for c9_unknown_fn_fallback: an anonymous function node. -/
theorem c9_unknown_fn_fallback_witness :
    (sliceFunction emptyRegistry
        (CNode.mk "function_definition" "void () \x7b \x7d" CForest.nil)).id =
      "unknown_fn" :=
  (c9_unknown_fn_fallback emptyRegistry
    [CNode.mk "function_definition" "void () \x7b \x7d" CForest.nil]
    (CNode.mk "function_definition" "void () \x7b \x7d" CForest.nil)
    (by simp) (by decide)).2.2

/-! ## Helper lemmas: mapper graph -/

/-- A last-match fold that returns some j found j matching in the list
(unless it was already the accumulator). -/
theorem foldl_lastMatch {P : Nat → Prop} [DecidablePred P] :
    ∀ (l : List Nat) (acc : Option Nat) (j : Nat),
      l.foldl (fun a k => if P k then some k else a) acc = some j →
      acc = some j ∨ (j ∈ l ∧ P j)
  | [], _, _, h => Or.inl h
  | k :: rest, acc, j, h => by
    rcases foldl_lastMatch rest (if P k then some k else acc) j h with h1 | h1
    · by_cases hP : P k
      · rw [if_pos hP] at h1
        injection h1 with hkj
        subst hkj
        exact Or.inr ⟨List.mem_cons_self _ _, hP⟩
      · rw [if_neg hP] at h1
        exact Or.inl h1
    · exact Or.inr ⟨List.mem_cons_of_mem _ h1.1, h1.2⟩

/-- A last-match fold started from some value stays some. -/
theorem foldl_lastMatch_some {P : Nat → Prop} [DecidablePred P] :
    ∀ (l : List Nat) (m : Nat),
      ∃ j, l.foldl (fun a k => if P k then some k else a) (some m) = some j
  | [], m => ⟨m, rfl⟩
  | k :: rest, m => by
    by_cases hP : P k
    · simpa [hP] using foldl_lastMatch_some rest k
    · simpa [hP] using foldl_lastMatch_some rest m

/-- A last-match fold over a list holding a match returns some value. -/
theorem foldl_lastMatch_exists {P : Nat → Prop} [DecidablePred P] :
    ∀ (l : List Nat) (acc : Option Nat), (∃ k ∈ l, P k) →
      ∃ j, l.foldl (fun a k => if P k then some k else a) acc = some j
  | [], _, h => absurd h (by simp)
  | k :: rest, acc, ⟨k0, hk0, hP0⟩ => by
    by_cases hP : P k
    · simpa [hP] using foldl_lastMatch_some rest k
    · have hk0r : k0 ∈ rest := by
        rcases List.mem_cons.mp hk0 with h | h
        · exact absurd (h ▸ hP0) hP
        · exact h
      simpa [hP] using foldl_lastMatch_exists rest acc ⟨k0, hk0r, hP0⟩

/-- A node index returned by the nodes map is in range and carries the
looked-up id. -/
theorem nodeIdx_spec (units : List AtomicUnit) (s : String) (j : Nat)
    (h : nodeIdx units s = some j) :
    j < units.length ∧ (units.getD j defaultUnit).id = s := by
  unfold nodeIdx at h
  rcases foldl_lastMatch (List.range units.length) none j h with h1 | h1
  · exact absurd h1 (by simp)
  · exact ⟨List.mem_range.mp h1.1, h1.2⟩

/-- The nodes map finds an index whenever some unit carries the id. -/
theorem nodeIdx_isSome (units : List AtomicUnit) (s : String) (i : Nat)
    (hi : i < units.length) (hid : (units.getD i defaultUnit).id = s) :
    ∃ j, nodeIdx units s = some j := by
  unfold nodeIdx
  exact foldl_lastMatch_exists _ none ⟨i, List.mem_range.mpr hi, hid⟩

/-- With duplicate-free ids, positions are determined by ids. -/
theorem nodup_id_inj (units : List AtomicUnit)
    (h : (units.map (fun u => u.id)).Nodup) (i j : Nat)
    (hi : i < units.length) (hj : j < units.length)
    (hij : (units.getD i defaultUnit).id = (units.getD j defaultUnit).id) : i = j := by
  have hi' : i < (units.map (fun u => u.id)).length := by simpa using hi
  have hj' : j < (units.map (fun u => u.id)).length := by simpa using hj
  have hmi : (units.map (fun u => u.id)).get ⟨i, hi'⟩ =
      (units.map (fun u => u.id)).get ⟨j, hj'⟩ := by
    simp only [List.get_eq_getElem, List.getElem_map]
    rw [List.getD_eq_getElem _ _ hi, List.getD_eq_getElem _ _ hj] at hij
    exact hij
  simpa using (List.Nodup.get_inj_iff h).mp hmi

/-- With duplicate-free ids the nodes map sends each unit id to the unit
position. -/
theorem nodeIdx_eq_self (units : List AtomicUnit)
    (hnodup : (units.map (fun u => u.id)).Nodup) (i : Nat) (hi : i < units.length) :
    nodeIdx units (units.getD i defaultUnit).id = some i := by
  obtain ⟨j, hj⟩ := nodeIdx_isSome units _ i hi rfl
  obtain ⟨hjlen, hjid⟩ := nodeIdx_spec units _ j hj
  rw [hj, nodup_id_inj units hnodup j i hjlen hi hjid]

/-- An unknown id has no node. -/
theorem nodeIdx_none (units : List AtomicUnit) (s : String)
    (hs : s ∉ units.map (fun u => u.id)) : nodeIdx units s = none := by
  cases h : nodeIdx units s with
  | none => rfl
  | some j =>
    obtain ⟨hjlen, hjid⟩ := nodeIdx_spec units s j h
    refine absurd ?_ hs
    rw [← hjid, List.getD_eq_getElem _ _ hjlen]
    exact List.mem_map_of_mem _ (List.getElem_mem _)

/-- Membership in the edge list, unfolded to the generating unit and
dependency. -/
theorem edges_mem (units : List AtomicUnit) (i j : Nat) :
    (i, j) ∈ edges units ↔ ∃ u ∈ units, nodeIdx units u.id = some i ∧
      ∃ d ∈ u.dependencies, nodeIdx units d = some j := by
  unfold edges
  rw [List.mem_flatten]
  constructor
  · rintro ⟨l, hl, hmem⟩
    rw [List.mem_map] at hl
    obtain ⟨u, hu, rfl⟩ := hl
    cases hni : nodeIdx units u.id with
    | none =>
      rw [hni] at hmem
      simp at hmem
    | some fi =>
      rw [hni] at hmem
      rw [List.mem_filterMap] at hmem
      obtain ⟨d, hd, hopt⟩ := hmem
      cases hnd : nodeIdx units d with
      | none =>
        rw [hnd] at hopt
        simp at hopt
      | some jd =>
        rw [hnd] at hopt
        have hopt' : (fi, jd) = (i, j) := Option.some.inj hopt
        obtain ⟨hfi, hjd⟩ := Prod.mk.inj hopt'
        exact ⟨u, hu, by rw [hni, hfi], d, hd, by rw [hnd, hjd]⟩
  · rintro ⟨u, hu, hni, d, hd, hnd⟩
    refine ⟨u.dependencies.filterMap (fun d => (nodeIdx units d).map (fun j2 => (i, j2))),
      ?_, ?_⟩
    · rw [List.mem_map]
      exact ⟨u, hu, by rw [hni]⟩
    · rw [List.mem_filterMap]
      exact ⟨d, hd, by rw [hnd]; rfl⟩

/-- With duplicate-free ids, the edge list is exactly the dependency
relation on positions. -/
theorem edges_mem_nodup (units : List AtomicUnit)
    (hnodup : (units.map (fun u => u.id)).Nodup) (i j : Nat) :
    (i, j) ∈ edges units ↔ i < units.length ∧ j < units.length ∧
      (units.getD j defaultUnit).id ∈ (units.getD i defaultUnit).dependencies := by
  rw [edges_mem]
  constructor
  · rintro ⟨u, hu, hni, d, hd, hnd⟩
    obtain ⟨hilen, hiid⟩ := nodeIdx_spec units u.id i hni
    obtain ⟨hjlen, hjid⟩ := nodeIdx_spec units d j hnd
    obtain ⟨k, hk, hke⟩ := List.mem_iff_getElem.mp hu
    have hkid : (units.getD k defaultUnit).id = (units.getD i defaultUnit).id := by
      rw [List.getD_eq_getElem _ _ hk, hke, hiid]
    have hki : k = i := nodup_id_inj units hnodup k i hk hilen hkid
    subst hki
    refine ⟨hilen, hjlen, ?_⟩
    rw [hjid, List.getD_eq_getElem _ _ hilen, hke]
    exact hd
  · rintro ⟨hi, hj, hdep⟩
    refine ⟨units.getD i defaultUnit, ?_, nodeIdx_eq_self units hnodup i hi,
      (units.getD j defaultUnit).id, hdep, nodeIdx_eq_self units hnodup j hj⟩
    rw [List.getD_eq_getElem _ _ hi]
    exact List.getElem_mem _

/-- In a duplicate-free partition, membership in the k-th component
determines the component index found by node_to_scc. -/
theorem sccOf_eq : ∀ (sccs : List (List Nat)), sccs.flatten.Nodup →
    ∀ (k : Nat), k < sccs.length → ∀ v ∈ sccs.getD k [], sccOf sccs v = k
  | [], _, k, hk => absurd hk (by simp)
  | scc :: rest, hnd, 0, _ => by
    intro v hv
    unfold sccOf
    rw [List.findIdx_cons]
    have hc : scc.contains v = true := by simpa using hv
    simp only [hc, cond_true]
  | scc :: rest, hnd, (k+1), hk => by
    intro v hv
    have hk' : k < rest.length := by simpa using hk
    have hvr : v ∈ rest.flatten := by
      rw [List.mem_flatten]
      refine ⟨rest.getD k [], ?_, hv⟩
      rw [List.getD_eq_getElem _ _ hk']
      exact List.getElem_mem _
    have hnd' : (scc ++ rest.flatten).Nodup := by
      simpa [List.flatten_cons] using hnd
    obtain ⟨-, hndr, hdisj⟩ := List.nodup_append.mp hnd'
    have hns : v ∉ scc := fun hvs => hdisj hvs hvr
    unfold sccOf
    rw [List.findIdx_cons]
    have hc : scc.contains v = false := by simpa using hns
    simp only [hc, cond_false]
    have hrec := sccOf_eq rest hndr k hk' v (by simpa using hv)
    unfold sccOf at hrec
    omega

/-- Every vertex below the unit count lies in some component. -/
theorem mem_scc_of_lt (sccs : List (List Nat)) (n : Nat)
    (hperm : sccs.flatten.Perm (List.range n)) (v : Nat) (hv : v < n) :
    ∃ k, k < sccs.length ∧ v ∈ sccs.getD k [] := by
  have hvf : v ∈ sccs.flatten := hperm.mem_iff.mpr (List.mem_range.mpr hv)
  rw [List.mem_flatten] at hvf
  obtain ⟨l, hl, hvl⟩ := hvf
  obtain ⟨k, hk, hke⟩ := List.mem_iff_getElem.mp hl
  refine ⟨k, hk, ?_⟩
  rw [List.getD_eq_getElem _ _ hk, hke]
  exact hvl

/-- Component members are vertices of the graph. -/
theorem scc_elem_lt (sccs : List (List Nat)) (n : Nat)
    (hperm : sccs.flatten.Perm (List.range n)) (k : Nat) (hk : k < sccs.length)
    (v : Nat) (hv : v ∈ sccs.getD k []) : v < n := by
  have hvf : v ∈ sccs.flatten := by
    rw [List.mem_flatten]
    refine ⟨sccs.getD k [], ?_, hv⟩
    rw [List.getD_eq_getElem _ _ hk]
    exact List.getElem_mem _
  exact List.mem_range.mp (hperm.mem_iff.mp hvf)

/-- Reading every position of a list in order reproduces the list. -/
theorem range_map_getD {α : Type} (l : List α) (d : α) :
    (List.range l.length).map (fun k => l.getD k d) = l := by
  apply List.ext_getElem
  · simp
  · intro i h1 h2
    simp only [List.getElem_map, List.getElem_range]
    exact List.getD_eq_getElem l d h2

/-- Reading every unit id by position reproduces the id list. -/
theorem range_map_getD_id (units : List AtomicUnit) :
    (List.range units.length).map (fun v => (units.getD v defaultUnit).id) =
      units.map (fun u => u.id) := by
  conv_rhs => rw [← range_map_getD units defaultUnit]
  rw [List.map_map]
  rfl

/-- The emitted id lists, batch by batch. -/
theorem buildOrderBatches_map_units (units : List AtomicUnit) (sccs : List (List Nat))
    (topo : List Nat) :
    (buildOrderBatches units sccs topo).map (fun b => b.units) =
      topo.reverse.map (fun k =>
        (sccs.getD k []).map (fun v => (units.getD v defaultUnit).id)) := by
  unfold buildOrderBatches
  rw [List.map_map]
  rfl

/-- Coverage: given the tarjan_scc contract (the components partition the
vertex positions) and the toposort contract (an order of all component
indices), the flattened emitted order is a permutation of the input ids. -/
theorem mapper_coverage (units : List AtomicUnit) (sccs : List (List Nat))
    (topo : List Nat)
    (hsccs : sccs.flatten.Perm (List.range units.length))
    (htopo : topo.Perm (List.range sccs.length)) :
    ((buildOrderBatches units sccs topo).map (fun b => b.units)).flatten.Perm
      (units.map (fun u => u.id)) := by
  rw [buildOrderBatches_map_units]
  have h2 : (topo.reverse.map (fun k =>
      (sccs.getD k []).map (fun v => (units.getD v defaultUnit).id))).flatten =
      ((topo.reverse.map (fun k => sccs.getD k [])).flatten).map
        (fun v => (units.getD v defaultUnit).id) := by
    rw [List.map_flatten, List.map_map]
    rfl
  rw [h2]
  have p1 : (topo.reverse.map (fun k => sccs.getD k [])).Perm sccs := by
    have := ((topo.reverse_perm).trans htopo).map (fun k => sccs.getD k [])
    rwa [range_map_getD sccs []] at this
  have p3 : ((topo.reverse.map (fun k => sccs.getD k [])).flatten).Perm
      (List.range units.length) := (p1.flatten).trans hsccs
  have p4 := p3.map (fun v => (units.getD v defaultUnit).id)
  rwa [range_map_getD_id units] at p4

/-- The id list of the batch at a given output position. -/
theorem batch_units_getD (units : List AtomicUnit) (sccs : List (List Nat))
    (topo : List Nat) (b : Nat) (hb : b < topo.length) :
    ((buildOrderBatches units sccs topo).getD b defaultBatch).units =
      (sccs.getD (topo.reverse.getD b 0) []).map
        (fun v => (units.getD v defaultUnit).id) := by
  have hb' : b < topo.reverse.length := by simpa using hb
  unfold buildOrderBatches
  rw [List.getD_eq_getElem _ _ (by simpa using hb'), List.getElem_map,
    List.getD_eq_getElem _ _ hb']
  rfl

/-- An output position reads a member of the toposort. -/
theorem reverse_getD_mem (topo : List Nat) (b : Nat) (hb : b < topo.length) :
    topo.reverse.getD b 0 ∈ topo := by
  have hb' : b < topo.reverse.length := by simpa using hb
  rw [List.getD_eq_getElem _ _ hb']
  exact List.mem_reverse.mp (List.getElem_mem _)

/-- In a duplicate-free list the position of a read element is the read
position. -/
theorem nodup_indexOf_eq (l : List Nat) (hnd : l.Nodup) (m : Nat) (hm : m < l.length) :
    l.indexOf (l.getD m 0) = m := by
  have hmem : l.getD m 0 ∈ l := by
    rw [List.getD_eq_getElem _ _ hm]
    exact List.getElem_mem _
  have hidx : l.indexOf (l.getD m 0) < l.length := List.indexOf_lt_length.mpr hmem
  have hget : l.get ⟨l.indexOf (l.getD m 0), hidx⟩ = l.getD m 0 := List.indexOf_get hidx
  have hget2 : l.get ⟨m, hm⟩ = l.getD m 0 := by
    rw [List.getD_eq_getElem _ _ hm]
    simp
  simpa using (List.Nodup.get_inj_iff hnd).mp (hget.trans hget2.symm)

/-- Ordering: with duplicate-free ids and the library contracts as
hypotheses (partition into components; a topological order of the
condensed graph, in which the source component of every cross-component
edge comes before its target component), a dependency that is itself a
unit never sits in a later batch than its caller. -/
theorem mapper_ordering (units : List AtomicUnit) (sccs : List (List Nat))
    (topo : List Nat)
    (hids : (units.map (fun u => u.id)).Nodup)
    (hsccs : sccs.flatten.Perm (List.range units.length))
    (htopo : topo.Perm (List.range sccs.length))
    (hedge : ∀ p ∈ edges units, sccOf sccs p.1 ≠ sccOf sccs p.2 →
      topo.indexOf (sccOf sccs p.1) < topo.indexOf (sccOf sccs p.2)) :
    ∀ u ∈ units, ∀ d ∈ u.dependencies, d ∈ units.map (fun u2 => u2.id) →
      ∀ bi bj : Nat, bi < (buildOrderBatches units sccs topo).length →
        bj < (buildOrderBatches units sccs topo).length →
        u.id ∈ ((buildOrderBatches units sccs topo).getD bi defaultBatch).units →
        d ∈ ((buildOrderBatches units sccs topo).getD bj defaultBatch).units →
        bj ≤ bi := by
  intro u hu d hd hdunit bi bj hbi hbj hubi hdbj
  have hlenb : (buildOrderBatches units sccs topo).length = topo.length := by
    simp [buildOrderBatches]
  rw [hlenb] at hbi hbj
  have hndflat : sccs.flatten.Nodup := hsccs.nodup_iff.mpr (List.nodup_range _)
  have hndtopo : topo.Nodup := htopo.nodup_iff.mpr (List.nodup_range _)
  -- the component indices read at the two output positions
  have hkbi_mem : topo.reverse.getD bi 0 ∈ topo := reverse_getD_mem topo bi hbi
  have hkbj_mem : topo.reverse.getD bj 0 ∈ topo := reverse_getD_mem topo bj hbj
  have hkbi_lt : topo.reverse.getD bi 0 < sccs.length :=
    List.mem_range.mp (htopo.mem_iff.mp hkbi_mem)
  have hkbj_lt : topo.reverse.getD bj 0 < sccs.length :=
    List.mem_range.mp (htopo.mem_iff.mp hkbj_mem)
  -- the caller unit in the batch at bi
  rw [batch_units_getD units sccs topo bi hbi] at hubi
  obtain ⟨v, hv, hvid⟩ := List.mem_map.mp hubi
  have hvlt : v < units.length :=
    scc_elem_lt sccs units.length hsccs _ hkbi_lt v hv
  obtain ⟨iu, hiu, hiue⟩ := List.mem_iff_getElem.mp hu
  have hviu : v = iu := by
    refine nodup_id_inj units hids v iu hvlt hiu ?_
    rw [List.getD_eq_getElem _ _ hiu, hiue, hvid]
  subst hviu
  have hscu : sccOf sccs v = topo.reverse.getD bi 0 :=
    sccOf_eq sccs hndflat _ hkbi_lt v hv
  -- the dependency unit in the batch at bj
  rw [batch_units_getD units sccs topo bj hbj] at hdbj
  obtain ⟨w, hw, hwid⟩ := List.mem_map.mp hdbj
  have hwlt : w < units.length :=
    scc_elem_lt sccs units.length hsccs _ hkbj_lt w hw
  obtain ⟨ud, hud, hude⟩ := List.mem_map.mp hdunit
  obtain ⟨jd, hjd, hjde⟩ := List.mem_iff_getElem.mp hud
  have hwjd : w = jd := by
    refine nodup_id_inj units hids w jd hwlt hjd ?_
    rw [List.getD_eq_getElem _ _ hjd, hjde, hude, hwid]
  subst hwjd
  have hscd : sccOf sccs w = topo.reverse.getD bj 0 :=
    sccOf_eq sccs hndflat _ hkbj_lt w hw
  -- the graph edge from caller to dependency
  have hedge_mem : (v, w) ∈ edges units := by
    refine (edges_mem_nodup units hids v w).mpr ⟨hvlt, hwlt, ?_⟩
    rw [List.getD_eq_getElem _ _ hvlt, hiue, List.getD_eq_getElem _ _ hwlt, hjde, hude]
    exact hd
  by_cases hkk : topo.reverse.getD bi 0 = topo.reverse.getD bj 0
  · -- same component, hence the same batch position
    have hbi' : bi < topo.reverse.length := by simpa using hbi
    have hbj' : bj < topo.reverse.length := by simpa using hbj
    have hget : topo.reverse.get ⟨bi, hbi'⟩ = topo.reverse.get ⟨bj, hbj'⟩ := by
      simp only [List.get_eq_getElem]
      rw [← List.getD_eq_getElem _ 0 hbi', ← List.getD_eq_getElem _ 0 hbj']
      exact hkk
    have hbibj : bi = bj := by
      simpa using (List.Nodup.get_inj_iff (List.nodup_reverse.mpr hndtopo)).mp hget
    omega
  · -- distinct components: the toposort hypothesis orders them
    have hlt := hedge (v, w) hedge_mem (by rw [hscu, hscd]; exact hkk)
    rw [hscu, hscd] at hlt
    have hidx_i : topo.indexOf (topo.reverse.getD bi 0) = topo.length - 1 - bi := by
      have h1 : topo.reverse.getD bi 0 = topo.getD (topo.length - 1 - bi) 0 := by
        rw [List.getD_eq_getElem _ _ (by simpa using hbi),
          List.getD_eq_getElem _ 0 (show topo.length - 1 - bi < topo.length by omega)]
        exact List.getElem_reverse _
      rw [h1]
      exact nodup_indexOf_eq topo hndtopo _ (by omega)
    have hidx_j : topo.indexOf (topo.reverse.getD bj 0) = topo.length - 1 - bj := by
      have h1 : topo.reverse.getD bj 0 = topo.getD (topo.length - 1 - bj) 0 := by
        rw [List.getD_eq_getElem _ _ (by simpa using hbj),
          List.getD_eq_getElem _ 0 (show topo.length - 1 - bj < topo.length by omega)]
        exact List.getElem_reverse _
      rw [h1]
      exact nodup_indexOf_eq topo hndtopo _ (by omega)
    rw [hidx_i, hidx_j] at hlt
    omega

/-! ## Claims C1, C6, C7 (mapper) -/

/-- C1: under the petgraph contracts (tarjan_scc partitions the vertex
positions into components; toposort lists every component index and puts
the source component of each cross-component edge before its target
component) and with duplicate-free unit ids, the emitted order contains
every unit exactly once, and a dependency that is itself a unit sits in
the same batch as its caller or in an earlier one. -/
theorem c1_mapper_coverage_and_ordering (units : List AtomicUnit)
    (sccs : List (List Nat)) (topo : List Nat)
    (hids : (units.map (fun u => u.id)).Nodup)
    (hsccs : sccs.flatten.Perm (List.range units.length))
    (htopo : topo.Perm (List.range sccs.length))
    (hedge : ∀ p ∈ edges units, sccOf sccs p.1 ≠ sccOf sccs p.2 →
      topo.indexOf (sccOf sccs p.1) < topo.indexOf (sccOf sccs p.2)) :
    ((buildOrderBatches units sccs topo).map (fun b => b.units)).flatten.Perm
      (units.map (fun u => u.id)) ∧
    (∀ u ∈ units, ∀ d ∈ u.dependencies, d ∈ units.map (fun u2 => u2.id) →
      ∀ bi bj : Nat, bi < (buildOrderBatches units sccs topo).length →
        bj < (buildOrderBatches units sccs topo).length →
        u.id ∈ ((buildOrderBatches units sccs topo).getD bi defaultBatch).units →
        d ∈ ((buildOrderBatches units sccs topo).getD bj defaultBatch).units →
        bj ≤ bi) :=
  ⟨mapper_coverage units sccs topo hsccs htopo,
   mapper_ordering units sccs topo hids hsccs htopo hedge⟩

/-- Witness for c1_mapper_coverage_and_ordering on the two-unit chain a
calling b. -/
theorem c1_mapper_coverage_and_ordering_witness :
    ((buildOrderBatches
        [(⟨"a", "", ["b"], []⟩ : AtomicUnit), (⟨"b", "", [], []⟩ : AtomicUnit)]
        [[0], [1]] [0, 1]).map (fun b => b.units)).flatten.Perm
      ([(⟨"a", "", ["b"], []⟩ : AtomicUnit), (⟨"b", "", [], []⟩ : AtomicUnit)].map
        (fun u => u.id)) :=
  (c1_mapper_coverage_and_ordering
    [(⟨"a", "", ["b"], []⟩ : AtomicUnit), (⟨"b", "", [], []⟩ : AtomicUnit)]
    [[0], [1]] [0, 1] (by decide) (by decide) (by decide) (by decide)).1

/-- The super-node flag, size field and difficulty tag of one emitted
batch, as functions of the member count. -/
theorem emitBatch_spec (units : List AtomicUnit) (scc : List Nat) :
    ((emitBatch units scc).is_super_node = true ↔
        1 < (emitBatch units scc).units.length) ∧
    ((emitBatch units scc).scc_size.isSome = (emitBatch units scc).is_super_node) ∧
    ∀ d, (emitBatch units scc).refactoring_difficulty = some d →
      ((2 ≤ (emitBatch units scc).units.length ∧
          (emitBatch units scc).units.length ≤ 5) → d = "Low") ∧
      ((6 ≤ (emitBatch units scc).units.length ∧
          (emitBatch units scc).units.length ≤ 10) → d = "Medium") ∧
      ((11 ≤ (emitBatch units scc).units.length ∧
          (emitBatch units scc).units.length ≤ 20) → d = "High") ∧
      (20 < (emitBatch units scc).units.length → d = "Very High") := by
  refine ⟨?_, ?_, ?_⟩
  · simp [emitBatch]
  · by_cases h : 1 < scc.length
    · simp [emitBatch, h]
    · simp [emitBatch, h]
  · intro d hd
    simp only [emitBatch, List.length_map] at hd ⊢
    by_cases h1 : scc.length > 20
    · rw [if_pos h1] at hd
      injection hd with hd
      subst hd
      exact ⟨fun h => absurd h (by omega), fun h => absurd h (by omega),
        fun h => absurd h (by omega), fun _ => rfl⟩
    · rw [if_neg h1] at hd
      by_cases h2 : scc.length > 10
      · rw [if_pos h2] at hd
        injection hd with hd
        subst hd
        exact ⟨fun h => absurd h (by omega), fun h => absurd h (by omega),
          fun _ => rfl, fun h => absurd h (by omega)⟩
      · rw [if_neg h2] at hd
        by_cases h3 : scc.length > 5
        · rw [if_pos h3] at hd
          injection hd with hd
          subst hd
          exact ⟨fun h => absurd h (by omega), fun _ => rfl,
            fun h => absurd h (by omega), fun h => absurd h (by omega)⟩
        · rw [if_neg h3] at hd
          by_cases h4 : 1 < scc.length
          · rw [if_pos (by simpa using h4)] at hd
            injection hd with hd
            subst hd
            exact ⟨fun _ => rfl, fun h => absurd h (by omega),
              fun h => absurd h (by omega), fun h => absurd h (by omega)⟩
          · rw [if_neg (by simpa using h4)] at hd
            exact absurd hd (by simp)

/-- C6: in every emitted batch, is_super_node holds exactly for more than
one unit, scc_size is present exactly for super-nodes, and the difficulty
tag matches the size thresholds. -/
theorem c6_super_node_marking (units : List AtomicUnit) (sccs : List (List Nat))
    (topo : List Nat) :
    ∀ b ∈ buildOrderBatches units sccs topo,
      (b.is_super_node = true ↔ 1 < b.units.length) ∧
      (b.scc_size.isSome = b.is_super_node) ∧
      ∀ d, b.refactoring_difficulty = some d →
        ((2 ≤ b.units.length ∧ b.units.length ≤ 5) → d = "Low") ∧
        ((6 ≤ b.units.length ∧ b.units.length ≤ 10) → d = "Medium") ∧
        ((11 ≤ b.units.length ∧ b.units.length ≤ 20) → d = "High") ∧
        (20 < b.units.length → d = "Very High") := by
  intro b hb
  unfold buildOrderBatches at hb
  rw [List.mem_map] at hb
  obtain ⟨k, -, rfl⟩ := hb
  exact emitBatch_spec units (sccs.getD k [])

/-- Witness for c6_super_node_marking on the two-unit cycle a and b. -/
theorem c6_super_node_marking_witness :
    (emitBatch [(⟨"a", "", ["b"], []⟩ : AtomicUnit), (⟨"b", "", ["a"], []⟩ : AtomicUnit)]
        [0, 1]).scc_size.isSome =
      (emitBatch [(⟨"a", "", ["b"], []⟩ : AtomicUnit), (⟨"b", "", ["a"], []⟩ : AtomicUnit)]
        [0, 1]).is_super_node :=
  (c6_super_node_marking
    [(⟨"a", "", ["b"], []⟩ : AtomicUnit), (⟨"b", "", ["a"], []⟩ : AtomicUnit)]
    [[0, 1]] [0]
    (emitBatch [(⟨"a", "", ["b"], []⟩ : AtomicUnit), (⟨"b", "", ["a"], []⟩ : AtomicUnit)]
      [0, 1])
    (by decide)).2.1

/-- Dropping a dependency string does not change the list length. -/
theorem dropDanglingDep_length (units : List AtomicUnit) (x : String) :
    (dropDanglingDep units x).length = units.length := by
  simp [dropDanglingDep]

/-- Dropping a dependency string changes no unit id. -/
theorem dropDanglingDep_getD_id (units : List AtomicUnit) (x : String) (k : Nat) :
    ((dropDanglingDep units x).getD k defaultUnit).id = (units.getD k defaultUnit).id := by
  by_cases hk : k < units.length
  · rw [List.getD_eq_getElem _ _ (by simpa [dropDanglingDep] using hk),
      List.getD_eq_getElem _ _ hk]
    simp [dropDanglingDep]
  · rw [List.getD_eq_default _ _ (by simpa [dropDanglingDep] using Nat.le_of_not_lt hk),
      List.getD_eq_default _ _ (Nat.le_of_not_lt hk)]

/-- Two folds agree when the step functions agree pointwise. -/
theorem foldl_fun_congr {α β : Type} (l : List β) (f g : α → β → α)
    (h : ∀ acc b, f acc b = g acc b) : ∀ a : α, l.foldl f a = l.foldl g a := by
  induction l with
  | nil => intro a; rfl
  | cons b rest ih =>
    intro a
    rw [List.foldl_cons, List.foldl_cons, h, ih]

/-- The nodes map ignores dropped dependency strings: ids are unchanged. -/
theorem nodeIdx_dropDanglingDep (units : List AtomicUnit) (x s : String) :
    nodeIdx (dropDanglingDep units x) s = nodeIdx units s := by
  unfold nodeIdx
  rw [dropDanglingDep_length]
  refine foldl_fun_congr _ _ _ ?_ none
  intro acc k
  rw [dropDanglingDep_getD_id units x k]

/-- Filtering away entries the partial map rejects anyway does not change
a filterMap. -/
theorem filterMap_filter_ne {γ : Type} (g : String → Option γ) (x : String)
    (hg : g x = none) :
    ∀ l : List String, (l.filter (fun d => d ≠ x)).filterMap g = l.filterMap g
  | [] => rfl
  | d :: rest => by
    by_cases hdx : d = x
    · subst hdx
      rw [List.filter_cons_of_neg (by simp), List.filterMap_cons_none hg]
      exact filterMap_filter_ne g d hg rest
    · rw [List.filter_cons_of_pos (by simpa using hdx), List.filterMap_cons,
        List.filterMap_cons]
      have ih := filterMap_filter_ne g x hg rest
      cases g d with
      | none => exact ih
      | some v => rw [ih]

/-- The edge list is unchanged when a dangling dependency is dropped from
every unit: such entries never find a node, so they add no edge. -/
theorem edges_dropDanglingDep (units : List AtomicUnit) (x : String)
    (hx : x ∉ units.map (fun u => u.id)) :
    edges (dropDanglingDep units x) = edges units := by
  have hxnone : nodeIdx units x = none := nodeIdx_none units x hx
  unfold edges
  apply congrArg List.flatten
  simp only [nodeIdx_dropDanglingDep]
  rw [show dropDanglingDep units x = units.map (fun u =>
    { u with dependencies := u.dependencies.filter (fun d => d ≠ x) }) from rfl,
    List.map_map]
  apply List.map_congr_left
  intro u _
  simp only [Function.comp]
  cases hcase : nodeIdx units u.id with
  | none => rfl
  | some fi =>
    exact filterMap_filter_ne _ x (by rw [hxnone]; rfl) u.dependencies

/-- One emitted batch is unchanged when a dangling dependency is dropped. -/
theorem emitBatch_dropDanglingDep (units : List AtomicUnit) (x : String)
    (scc : List Nat) :
    emitBatch (dropDanglingDep units x) scc = emitBatch units scc := by
  unfold emitBatch
  rw [List.map_congr_left (fun v _ => dropDanglingDep_getD_id units x v)]

/-- The whole batch list is unchanged when a dangling dependency is
dropped. -/
theorem buildOrderBatches_dropDanglingDep (units : List AtomicUnit)
    (sccs : List (List Nat)) (topo : List Nat) (x : String) :
    buildOrderBatches (dropDanglingDep units x) sccs topo =
      buildOrderBatches units sccs topo := by
  unfold buildOrderBatches
  exact List.map_congr_left (fun k _ => emitBatch_dropDanglingDep units x _)

/-- C7: a dependency entry naming no unit adds no edge, changes neither
the batches nor the warnings, and its unit still appears in the emitted
order. -/
theorem c7_dangling_dependency (units : List AtomicUnit) (sccs : List (List Nat))
    (topo : List Nat) (x : String)
    (hx : x ∉ units.map (fun u => u.id))
    (hsccs : sccs.flatten.Perm (List.range units.length))
    (htopo : topo.Perm (List.range sccs.length)) :
    edges (dropDanglingDep units x) = edges units ∧
    buildOrderBatches (dropDanglingDep units x) sccs topo =
      buildOrderBatches units sccs topo ∧
    sizeWarnings (buildOrderBatches (dropDanglingDep units x) sccs topo) =
      sizeWarnings (buildOrderBatches units sccs topo) ∧
    ∀ u ∈ units, u.id ∈ ((buildOrderBatches units sccs topo).map
      (fun b => b.units)).flatten := by
  refine ⟨edges_dropDanglingDep units x hx,
    buildOrderBatches_dropDanglingDep units sccs topo x,
    congrArg sizeWarnings (buildOrderBatches_dropDanglingDep units sccs topo x), ?_⟩
  intro u hu
  exact (mapper_coverage units sccs topo hsccs htopo).mem_iff.mpr
    (List.mem_map_of_mem _ hu)

/-- Witness for c7_dangling_dependency: one unit calling the unknown
missing_extern. -/
theorem c7_dangling_dependency_witness :
    buildOrderBatches
        (dropDanglingDep [(⟨"a", "", ["missing_extern"], []⟩ : AtomicUnit)]
          "missing_extern") [[0]] [0] =
      buildOrderBatches [(⟨"a", "", ["missing_extern"], []⟩ : AtomicUnit)] [[0]] [0] :=
  (c7_dangling_dependency [(⟨"a", "", ["missing_extern"], []⟩ : AtomicUnit)]
    [[0]] [0] "missing_extern" (by decide) (by decide) (by decide)).2.1
